import Mathlib

/-!
Verification development for the Transunion lead-processing notebook.

The notebook defines two functions:
* `query_transunion` — sends an HTTP POST and extracts `transaction.output`
  from the parsed JSON response (the network transport is an external
  collaborator; we embed the response-handling logic, taking the parsed
  response object as input);
* `process_tu_lead` — flattens the nested lead record into a flat feature
  dictionary.

We embed Python values in the inductive type `Py` (the values that arise from
`json.loads`: `None`, strings, integers, dicts, lists).  Python dicts are
association lists with insertion-order semantics: assignment to an existing
key replaces the value in place, assignment to a fresh key appends.  Dict
keys are restricted to hashable values (`PyKey`), as in Python.  Fallible
operations (`.get` on a non-dict, `.lower()` on a non-string, `int()` on a
non-numeric value, iterating a non-sequence, using an unhashable key) return
`Except PyErr`, mirroring the exception classes CPython would raise.
-/

namespace TULead

/-- Hashable Python values: the only values this code ever uses as dict keys
(JSON object keys are strings; `score.get('name')` can also yield `None` or
an integer). -/
inductive PyKey where
  | none
  | str (s : String)
  | int (n : Int)
deriving DecidableEq, Repr

/-- Python values produced by `json.loads` and manipulated by the notebook. -/
inductive Py where
  | none
  | str (s : String)
  | int (n : Int)
  | dict (fields : List (PyKey × Py))
  | list (elems : List Py)

/-- A Python dict, as an insertion-ordered association list. -/
abbrev PyDict := List (PyKey × Py)

/-- The exception classes the embedded code can raise. -/
inductive PyErr where
  | attributeError
  | typeError
  | valueError
deriving DecidableEq, Repr

/-- Python truthiness (`if x:`): `None` is falsy; strings, dicts and lists
are truthy iff non-empty; integers are truthy iff non-zero. -/
def truthy : Py → Bool
  | .none => false
  | .str s => !s.data.isEmpty
  | .int n => n != 0
  | .dict fs => !fs.isEmpty
  | .list es => !es.isEmpty

/-- `str.lower()`, character by character (the strings this code meets are
ASCII). -/
def strLower (s : String) : String := String.mk (s.data.map Char.toLower)

/-- The numeric value of a decimal digit character, if it is one. -/
def charDigit? (c : Char) : Option Nat :=
  if c.isDigit then some (c.toNat - 48) else Option.none

/-- Accumulate the value of a run of decimal digits; any non-digit makes the
whole numeral invalid. -/
def digitsVal? : List Char → Nat → Option Nat
  | [], acc => some acc
  | c :: r, acc =>
    match charDigit? c with
    | some d => digitsVal? r (acc * 10 + d)
    | Option.none => Option.none

/-- `int(str)`: an optionally-signed non-empty run of decimal digits
(CPython also strips surrounding whitespace and allows digit-group
underscores; no claim involves such inputs). -/
def strToInt? (s : String) : Option Int :=
  match s.data with
  | [] => Option.none
  | c :: r =>
    if c = '-' then
      match r with
      | [] => Option.none
      | _ => (digitsVal? r 0).map (fun n => -(n : Int))
    else if c = '+' then
      match r with
      | [] => Option.none
      | _ => (digitsVal? r 0).map (fun n => (n : Int))
    else (digitsVal? (c :: r) 0).map (fun n => (n : Int))

/-- `k in d.keys()`. -/
def hasKey (d : PyDict) (k : PyKey) : Bool := d.any (fun p => p.1 == k)

/-- `d.get(k)` (and `d[k]` when the key is known to be present): the value
stored under `k`, or `None` when the key is absent. -/
def dictGet (d : PyDict) (k : PyKey) : Py :=
  match d.find? (fun p => p.1 == k) with
  | some p => p.2
  | Option.none => Py.none

/-- The in-place replacement pass of dict assignment: every entry stored
under `k` is replaced by `(k, v)`, all other entries are untouched. -/
def setMap (d : PyDict) (k : PyKey) (v : Py) : PyDict :=
  d.map (fun p => if p.1 == k then (k, v) else p)

/-- `d[k] = v`: replace in place when the key exists, append otherwise
(Python dicts preserve the original insertion position on overwrite). -/
def dictSet (d : PyDict) (k : PyKey) (v : Py) : PyDict :=
  if hasKey d k then setMap d k v
  else d ++ [(k, v)]

/-- `d.update(w)`: assign every entry of `w` into `d`, in `w`'s order. -/
def dictUpdate (d w : PyDict) : PyDict := w.foldl (fun a p => dictSet a p.1 p.2) d

/-- View a value as a dict; calling a dict method (`.get`, `.keys`) on any
other value raises `AttributeError`. -/
def pyAsDict : Py → Except PyErr PyDict
  | .dict fs => .ok fs
  | _ => .error .attributeError

/-- View a value as a sequence for iteration.  All claims quantify over
list-valued `score` sections; iteration over other values is modelled as a
fatal error. -/
def pyAsList : Py → Except PyErr (List Py)
  | .list es => .ok es
  | _ => .error .typeError

/-- View a value as a dict key; dicts and lists are unhashable
(`TypeError`). -/
def pyAsKey : Py → Except PyErr PyKey
  | .none => .ok .none
  | .str s => .ok (.str s)
  | .int n => .ok (.int n)
  | _ => .error .typeError

/-- `v.lower()`: defined on strings, `AttributeError` otherwise. -/
def pyLower : Py → Except PyErr Py
  | .str s => .ok (.str (strLower s))
  | _ => .error .attributeError

/-- `int(v)`: an integer is returned unchanged; a string is parsed as an
optionally-signed decimal numeral (`ValueError` when it is not one); `None`,
dicts and lists raise `TypeError`. -/
def pyInt : Py → Except PyErr Int
  | .int n => .ok n
  | .str s =>
    match strToInt? s with
    | some n => .ok n
    | Option.none => .error .valueError
  | _ => .error .typeError

/-- The four fixed personal-field names (`personal_variables` in the
source). -/
def personal_variables : List String := ["email", "phone", "first", "last"]

/-- The ten fixed (field, qualifier) pairs (`demo_variables` in the
source). -/
def demo_variables : List (String × String) :=
  [("age", "years"), ("income", "dollars"), ("children", "yes"), ("education", "years"),
   ("homeowner", "yes"), ("homevalue", "dollars"), ("resident", "years"),
   ("occupation", "first"), ("affiliation", "conservative"), ("affiliation", "liberal")]

/-- The personal-field loop of `process_tu_lead`: for each field name, read
it with `.get` (yielding `None` when absent), lower-case it when truthy
(raising `AttributeError` when a truthy value is not a string), and assign
it into the accumulator under its own name. -/
def personalLoop (pd : PyDict) : List String → PyDict → Except PyErr PyDict
  | [], acc => .ok acc
  | pv :: rest, acc =>
    match (if truthy (dictGet pd (.str pv)) then pyLower (dictGet pd (.str pv))
           else .ok (dictGet pd (.str pv))) with
    | .error e => .error e
    | .ok v2 => personalLoop pd rest (dictSet acc (.str pv) v2)

/-- Lines 67-77 of the source: build `personal_output` from the `data`
section (skipped entirely when the section is falsy). -/
def processPersonal (personal_data : Py) : Except PyErr PyDict :=
  if truthy personal_data then
    match pyAsDict personal_data with
    | .error e => .error e
    | .ok pd => personalLoop pd personal_variables []
  else .ok []

/-- The demographic loop of `process_tu_lead`: for each (field, qualifier)
pair whose field is a key of `demo`, assign
`{field}_{qualifier} := demo[field].get(qualifier)` (raising
`AttributeError` when `demo[field]` is not a dict). -/
def demoLoop (d : PyDict) : List (String × String) → PyDict → Except PyErr PyDict
  | [], acc => .ok acc
  | dv :: rest, acc =>
    if hasKey d (.str dv.1) then
      match pyAsDict (dictGet d (.str dv.1)) with
      | .error e => .error e
      | .ok sd => demoLoop d rest (dictSet acc (.str (dv.1 ++ "_" ++ dv.2)) (dictGet sd (.str dv.2)))
    else demoLoop d rest acc

/-- Lines 80-94 of the source: build `demo_output` from the `demo` section
(skipped entirely when the section is falsy). -/
def processDemo (demo : Py) : Except PyErr PyDict :=
  if truthy demo then
    match pyAsDict demo with
    | .error e => .error e
    | .ok d => demoLoop d demo_variables []
  else .ok []

/-- The score loop of `process_tu_lead`: for each entry,
`scores_output[entry.get('name')] = int(entry.get('score'))` — the
right-hand side is evaluated first, so `int()` failures surface before an
unhashable-name failure. -/
def scoresLoop : List Py → PyDict → Except PyErr PyDict
  | [], acc => .ok acc
  | e :: rest, acc =>
    match pyAsDict e with
    | .error err => .error err
    | .ok ed =>
      match pyInt (dictGet ed (.str "score")) with
      | .error err => .error err
      | .ok n =>
        match pyAsKey (dictGet ed (.str "name")) with
        | .error err => .error err
        | .ok k => scoresLoop rest (dictSet acc k (.int n))

/-- Lines 98-105 of the source: build `scores_output` from the `score`
section (skipped entirely when the section is falsy). -/
def processScores (scores : Py) : Except PyErr PyDict :=
  if truthy scores then
    match pyAsList scores with
    | .error e => .error e
    | .ok es => scoresLoop es []
  else .ok []

/-- `process_tu_lead` (the Normalizer): `None` yields `{}` immediately;
otherwise the personal, demographic and score sub-mappings are built in
source order and merged by `demo_output.update(personal_output)` followed by
`demo_output.update(scores_output)`. -/
def process_tu_lead : Py → Except PyErr PyDict
  | .none => .ok []
  | json_lead =>
    match pyAsDict json_lead with
    | .error e => .error e
    | .ok jd =>
      match processPersonal (dictGet jd (.str "data")) with
      | .error e => .error e
      | .ok personal_output =>
        match processDemo (dictGet jd (.str "demo")) with
        | .error e => .error e
        | .ok demo_output =>
          match processScores (dictGet jd (.str "score")) with
          | .error e => .error e
          | .ok scores_output =>
            .ok (dictUpdate (dictUpdate demo_output personal_output) scores_output)

/-- The response handling of `query_transunion` (the Fetcher), given the
parsed JSON response object: if `'transaction' in response_json.keys()` and
`'output' in response_json['transaction'].keys()`, return the nested value;
if the `transaction` key is absent, return `None` explicitly; if the
`transaction` key is present but the inner condition does not hold, the
function falls off the end and returns `None` implicitly.  Calling
`.keys()` on a non-dict `transaction` value raises `AttributeError`. -/
def query_transunion (response_json : PyDict) : Except PyErr Py :=
  if hasKey response_json (.str "transaction") then
    match dictGet response_json (.str "transaction") with
    | .dict t =>
      if hasKey t (.str "output") then .ok (dictGet t (.str "output")) else .ok Py.none
    | _ => .error .attributeError
  else .ok Py.none

/-- Is the value a Python string? -/
def isStr : Py → Bool
  | .str _ => true
  | _ => false

/-- A value the personal-field loop handles without raising: a string, or
any falsy value (which is written through unchanged). -/
def isStrOrFalsy (v : Py) : Bool := isStr v || !truthy v

/-- The value the personal-field loop stores for a raw field value: truthy
strings are lower-cased, falsy values pass through unchanged. -/
def personalValue (v : Py) : Py :=
  if truthy v then
    match v with
    | .str s => .str (strLower s)
    | w => w
  else v

/-- The (key, value) writes the personal-field loop performs, in order. -/
def personalWrites (pd : PyDict) (vars : List String) : PyDict :=
  vars.map (fun pv => (PyKey.str pv, personalValue (dictGet pd (.str pv))))

/-- `demo[field].get(qualifier)` as a total function (only used under the
hypothesis that `demo[field]` is a dict). -/
def pySub : Py → PyKey → Py
  | .dict sd, k => dictGet sd k
  | _, _ => Py.none

/-- The (key, value) writes the demographic loop performs, in order. -/
def demoWrites (d : PyDict) (vars : List (String × String)) : PyDict :=
  vars.filterMap (fun dv =>
    if hasKey d (.str dv.1) then
      some (PyKey.str (dv.1 ++ "_" ++ dv.2), pySub (dictGet d (.str dv.1)) (.str dv.2))
    else Option.none)

/-- The (key, value) writes the score loop performs, in order (an entry the
loop would fail on contributes nothing here; the loop-equals-writes lemma
holds under the hypothesis that no entry fails). -/
def scoreWrites (es : List Py) : PyDict :=
  es.filterMap (fun e =>
    match e with
    | .dict ed =>
      match pyAsKey (dictGet ed (.str "name")), pyInt (dictGet ed (.str "score")) with
      | .ok k, .ok n => some (k, Py.int n)
      | _, _ => Option.none
    | _ => Option.none)

/-- The integer a score entry contributes under key `k`: its converted
`score` when the entry is a dict whose `name` is the key `k`, nothing
otherwise. -/
def entryScoreInt (e : Py) (k : PyKey) : Option Int :=
  match e with
  | .dict ed =>
    match pyAsKey (dictGet ed (.str "name")), pyInt (dictGet ed (.str "score")) with
    | .ok k2, .ok n => if k2 == k then some n else Option.none
    | _, _ => Option.none
  | _ => Option.none

/-- The integer contributed under key `k` by the LAST score entry named `k`
(sequence order: later entries win). -/
def lastNamed : List Py → PyKey → Option Int
  | [], _ => Option.none
  | e :: rest, k =>
    match lastNamed rest k with
    | some n => some n
    | Option.none => entryScoreInt e k

/-- The value of the LAST write of key `k` in a write list. -/
def lastVal : PyDict → PyKey → Option Py
  | [], _ => Option.none
  | p :: rest, k =>
    match lastVal rest k with
    | some v => some v
    | Option.none => if p.1 == k then some p.2 else Option.none

/-- The four personal-field keys. -/
def personalKeys : List PyKey := personal_variables.map PyKey.str

/-- The ten composite demographic keys. -/
def compositeKeys : List PyKey :=
  demo_variables.map (fun dv => PyKey.str (dv.1 ++ "_" ++ dv.2))

/-- `k` is the `name` value of some entry of the record's `score`
sequence. -/
def isScoreName (jd : PyDict) (k : PyKey) : Prop :=
  ∃ es, dictGet jd (.str "score") = Py.list es ∧
    ∃ e ∈ es, ∃ ed, e = Py.dict ed ∧ pyAsKey (dictGet ed (.str "name")) = .ok k

example : process_tu_lead Py.none = .ok [] := rfl

example :
    process_tu_lead (Py.dict [(.str "data", Py.dict [(.str "first", Py.str "JOHN")])]) =
      .ok [(.str "email", Py.none), (.str "phone", Py.none),
           (.str "first", Py.str "john"), (.str "last", Py.none)] := rfl

example :
    process_tu_lead (Py.dict [(.str "demo", Py.dict [(.str "age", Py.dict [(.str "years", Py.int 45)])])]) =
      .ok [(.str "age_years", Py.int 45)] := rfl

example :
    process_tu_lead (Py.dict [(.str "score",
        Py.list [Py.dict [(.str "name", Py.str "riskA"), (.str "score", Py.str "222")]])]) =
      .ok [(.str "riskA", Py.int 222)] := rfl

theorem hasKey_nil (k : PyKey) : hasKey [] k = false := rfl

theorem hasKey_cons (p : PyKey × Py) (d : PyDict) (k : PyKey) :
    hasKey (p :: d) k = (p.1 == k || hasKey d k) := by
  simp [hasKey]

theorem dictGet_nil (k : PyKey) : dictGet [] k = Py.none := rfl

theorem dictGet_cons (p : PyKey × Py) (d : PyDict) (k : PyKey) :
    dictGet (p :: d) k = if p.1 = k then p.2 else dictGet d k := by
  by_cases h : p.1 = k
  · rw [if_pos h]
    unfold dictGet
    have hb : (fun q : PyKey × Py => q.1 == k) p = true := beq_iff_eq.mpr h
    rw [List.find?_cons_of_pos d hb]
  · rw [if_neg h]
    unfold dictGet
    rw [List.find?_cons_of_neg]
    simp [h]

theorem lastVal_nil (k : PyKey) : lastVal [] k = Option.none := rfl

theorem lastVal_cons (p : PyKey × Py) (d : PyDict) (k : PyKey) :
    lastVal (p :: d) k =
      (match lastVal d k with
       | some v => some v
       | Option.none => if p.1 == k then some p.2 else Option.none) := rfl

theorem dictGet_eq_none_of_not_hasKey (d : PyDict) (k : PyKey)
    (h : hasKey d k = false) : dictGet d k = Py.none := by
  induction d with
  | nil => rfl
  | cons p d ih =>
    rw [hasKey_cons, Bool.or_eq_false_iff] at h
    rw [dictGet_cons, if_neg (beq_eq_false_iff_ne.mp h.1)]
    exact ih h.2

theorem hasKey_of_dictGet_ne_none (d : PyDict) (k : PyKey)
    (h : dictGet d k ≠ Py.none) : hasKey d k = true := by
  by_contra hc
  exact h (dictGet_eq_none_of_not_hasKey d k (by simpa using hc))

theorem setMap_pred_self (k : PyKey) (v : Py) :
    ((fun p : PyKey × Py => p.1 == k) ∘ (fun p => if p.1 == k then (k, v) else p)) =
      (fun p : PyKey × Py => p.1 == k) := by
  funext p
  by_cases hp : p.1 = k <;> simp [hp]

theorem setMap_pred_ne (k : PyKey) (v : Py) (k2 : PyKey) (h : k2 ≠ k) :
    ((fun p : PyKey × Py => p.1 == k2) ∘ (fun p => if p.1 == k then (k, v) else p)) =
      (fun p : PyKey × Py => p.1 == k2) := by
  funext p
  by_cases hp : p.1 = k
  · have h1 : (k == k2) = false := beq_eq_false_iff_ne.mpr (fun he => h he.symm)
    have h2 : (p.1 == k2) = false :=
      beq_eq_false_iff_ne.mpr (fun he => h (he.symm.trans hp))
    simp [hp, h1, h2]
  · simp [hp]

theorem hasKey_setMap (d : PyDict) (k : PyKey) (v : Py) (k2 : PyKey) :
    hasKey (setMap d k v) k2 = if k2 = k then hasKey d k else hasKey d k2 := by
  unfold setMap hasKey
  rw [List.any_map]
  by_cases h2 : k2 = k
  · subst h2
    rw [if_pos rfl, setMap_pred_self]
  · rw [if_neg h2, setMap_pred_ne k v k2 h2]

theorem dictGet_setMap_self (d : PyDict) (k : PyKey) (v : Py) :
    dictGet (setMap d k v) k = if hasKey d k then v else Py.none := by
  unfold setMap dictGet hasKey
  rw [List.find?_map, setMap_pred_self]
  cases hf : d.find? (fun p => p.1 == k) with
  | none =>
    have : d.any (fun p => p.1 == k) = false := by
      rw [List.any_eq_false]
      intro p hp
      simp only [List.find?_eq_none] at hf
      simpa using hf p hp
    simp [this]
  | some q =>
    have hq : (q.1 == k) = true := by simpa using List.find?_some hf
    have : d.any (fun p => p.1 == k) = true := by
      rw [List.any_eq_true]
      exact ⟨q, List.mem_of_find?_eq_some hf, hq⟩
    simp [this, Option.map, hq]

theorem dictGet_setMap_ne (d : PyDict) (k : PyKey) (v : Py) (k2 : PyKey)
    (h : k2 ≠ k) : dictGet (setMap d k v) k2 = dictGet d k2 := by
  unfold setMap dictGet
  rw [List.find?_map, setMap_pred_ne k v k2 h]
  cases hf : d.find? (fun p => p.1 == k2) with
  | none => simp
  | some q =>
    have hq : (q.1 == k2) = true := by simpa using List.find?_some hf
    have hqk : (q.1 == k) = false := by
      rw [beq_eq_false_iff_ne]
      intro he
      exact h ((beq_iff_eq.mp hq).symm.trans he)
    simp [Option.map, hqk]

theorem lastVal_setMap_self (d : PyDict) (k : PyKey) (v : Py) :
    lastVal (setMap d k v) k = if hasKey d k then some v else Option.none := by
  induction d with
  | nil => simp [setMap, hasKey_nil, lastVal_nil]
  | cons p d ih =>
    rw [show setMap (p :: d) k v = (if p.1 == k then (k, v) else p) :: setMap d k v from rfl,
      lastVal_cons, ih, hasKey_cons]
    by_cases hd : hasKey d k = true
    · simp [hd]
    · have hd2 : hasKey d k = false := by simpa using hd
      by_cases hpk : p.1 = k <;> simp [hd2, hpk]

theorem lastVal_setMap_ne (d : PyDict) (k : PyKey) (v : Py) (k2 : PyKey)
    (h : k2 ≠ k) : lastVal (setMap d k v) k2 = lastVal d k2 := by
  induction d with
  | nil => simp [setMap, lastVal_nil]
  | cons p d ih =>
    rw [show setMap (p :: d) k v = (if p.1 == k then (k, v) else p) :: setMap d k v from rfl,
      lastVal_cons, ih, lastVal_cons]
    by_cases hpk : p.1 = k
    · have h1 : (k == k2) = false := beq_eq_false_iff_ne.mpr (fun he => h he.symm)
      have h2 : (p.1 == k2) = false :=
        beq_eq_false_iff_ne.mpr (fun he => h (he.symm.trans hpk))
      simp [hpk, h1, h2]
    · simp [hpk]

theorem lastVal_append_single (d : PyDict) (k : PyKey) (v : Py) (k2 : PyKey) :
    lastVal (d ++ [(k, v)]) k2 = if k2 = k then some v else lastVal d k2 := by
  induction d with
  | nil =>
    by_cases h : k2 = k
    · subst h
      simp [lastVal_cons, lastVal_nil]
    · have hb : (k == k2) = false := beq_eq_false_iff_ne.mpr (fun he => h he.symm)
      simp [lastVal_cons, lastVal_nil, hb, h]
  | cons p d ih =>
    rw [show (p :: d) ++ [(k, v)] = p :: (d ++ [(k, v)]) from rfl, lastVal_cons, ih,
      lastVal_cons]
    by_cases h : k2 = k <;> simp [h]

theorem dictGet_append_single (d : PyDict) (k : PyKey) (v : Py) (k2 : PyKey) :
    dictGet (d ++ [(k, v)]) k2 =
      if hasKey d k2 then dictGet d k2 else (if k2 = k then v else Py.none) := by
  induction d with
  | nil =>
    by_cases h : k2 = k
    · subst h
      simp [hasKey_nil, dictGet_cons, dictGet_nil]
    · have hb : ¬(k = k2) := fun he => h he.symm
      simp [hasKey_nil, dictGet_cons, dictGet_nil, hb, h]
  | cons p d ih =>
    rw [show (p :: d) ++ [(k, v)] = p :: (d ++ [(k, v)]) from rfl, dictGet_cons, ih,
      hasKey_cons, dictGet_cons]
    by_cases hp : p.1 = k2
    · simp [hp]
    · have hb : (p.1 == k2) = false := beq_eq_false_iff_ne.mpr hp
      simp [hp, hb]

theorem hasKey_append_single (d : PyDict) (k : PyKey) (v : Py) (k2 : PyKey) :
    hasKey (d ++ [(k, v)]) k2 = (hasKey d k2 || k == k2) := by
  unfold hasKey
  rw [List.any_append]
  simp

theorem hasKey_set (d : PyDict) (k : PyKey) (v : Py) (k2 : PyKey) :
    hasKey (dictSet d k v) k2 = if k2 = k then true else hasKey d k2 := by
  unfold dictSet
  by_cases hd : hasKey d k = true
  · rw [if_pos hd, hasKey_setMap]
    by_cases h2 : k2 = k <;> simp [h2, hd]
  · rw [if_neg hd, hasKey_append_single]
    by_cases h2 : k2 = k
    · subst h2
      simp
    · have hb : (k == k2) = false := beq_eq_false_iff_ne.mpr (fun he => h2 he.symm)
      simp [h2, hb]

theorem dictGet_set (d : PyDict) (k : PyKey) (v : Py) (k2 : PyKey) :
    dictGet (dictSet d k v) k2 = if k2 = k then v else dictGet d k2 := by
  unfold dictSet
  by_cases hd : hasKey d k = true
  · rw [if_pos hd]
    by_cases h2 : k2 = k
    · subst h2
      simp [dictGet_setMap_self, hd]
    · simp [dictGet_setMap_ne d k v k2 h2, h2]
  · rw [if_neg hd, dictGet_append_single]
    by_cases h2 : k2 = k
    · subst h2
      have hd2 : hasKey d k2 = false := by simpa using hd
      simp [hd2]
    · rw [if_neg h2, if_neg h2]
      by_cases hk2 : hasKey d k2 = true
      · rw [if_pos hk2]
      · have hk2f : hasKey d k2 = false := by simpa using hk2
        rw [if_neg hk2, dictGet_eq_none_of_not_hasKey d k2 hk2f]

theorem lastVal_set (d : PyDict) (k : PyKey) (v : Py) (k2 : PyKey) :
    lastVal (dictSet d k v) k2 = if k2 = k then some v else lastVal d k2 := by
  unfold dictSet
  by_cases hd : hasKey d k = true
  · rw [if_pos hd]
    by_cases h2 : k2 = k
    · subst h2
      simp [lastVal_setMap_self, hd]
    · simp [lastVal_setMap_ne d k v k2 h2, h2]
  · rw [if_neg hd, lastVal_append_single]

theorem dictUpdate_nil (d : PyDict) : dictUpdate d [] = d := rfl

theorem dictUpdate_cons (d : PyDict) (p : PyKey × Py) (w : PyDict) :
    dictUpdate d (p :: w) = dictUpdate (dictSet d p.1 p.2) w := rfl

theorem dictGet_update (d w : PyDict) (k : PyKey) :
    dictGet (dictUpdate d w) k = (lastVal w k).getD (dictGet d k) := by
  induction w generalizing d with
  | nil => simp [dictUpdate_nil, lastVal_nil]
  | cons p w ih =>
    rw [dictUpdate_cons, ih, dictGet_set, lastVal_cons]
    cases hw : lastVal w k with
    | none =>
      by_cases hp : k = p.1
      · have hb : (p.1 == k) = true := beq_iff_eq.mpr hp.symm
        simp [hp, hb]
      · have hb : (p.1 == k) = false := beq_eq_false_iff_ne.mpr (fun he => hp he.symm)
        simp [hp, hb]
    | some v => simp

theorem hasKey_update (d w : PyDict) (k : PyKey) :
    hasKey (dictUpdate d w) k = (hasKey d k || hasKey w k) := by
  induction w generalizing d with
  | nil => simp [dictUpdate_nil, hasKey_nil]
  | cons p w ih =>
    rw [dictUpdate_cons, ih, hasKey_set, hasKey_cons]
    by_cases hp : k = p.1
    · have hb : (p.1 == k) = true := beq_iff_eq.mpr hp.symm
      simp [hp, hb]
    · have hb : (p.1 == k) = false := beq_eq_false_iff_ne.mpr (fun he => hp he.symm)
      simp [hp, hb]

theorem lastVal_update (d w : PyDict) (k : PyKey) :
    lastVal (dictUpdate d w) k =
      (match lastVal w k with
       | some v => some v
       | Option.none => lastVal d k) := by
  induction w generalizing d with
  | nil => simp [dictUpdate_nil, lastVal_nil]
  | cons p w ih =>
    rw [dictUpdate_cons, ih, lastVal_set, lastVal_cons]
    cases hw : lastVal w k with
    | none =>
      by_cases hp : k = p.1
      · have hb : (p.1 == k) = true := beq_iff_eq.mpr hp.symm
        simp [hp, hb]
      · have hb : (p.1 == k) = false := beq_eq_false_iff_ne.mpr (fun he => hp he.symm)
        simp [hp, hb]
    | some v => simp

theorem lower_step (v : Py) (h : isStrOrFalsy v = true) :
    (if truthy v then pyLower v else Except.ok v) = .ok (personalValue v) := by
  by_cases ht : truthy v = true
  · cases v with
    | str s => simp [ht, pyLower, personalValue]
    | none => simp [truthy] at ht
    | int n => simp [isStrOrFalsy, isStr, ht] at h
    | dict fs => simp [isStrOrFalsy, isStr, ht] at h
    | list es => simp [isStrOrFalsy, isStr, ht] at h
  · have ht2 : truthy v = false := by simpa using ht
    simp [ht2, personalValue]

theorem pyLower_err (v : Py) (hs : isStr v = false) :
    pyLower v = .error .attributeError := by
  cases v with
  | str s => simp [isStr] at hs
  | none => rfl
  | int n => rfl
  | dict fs => rfl
  | list es => rfl

theorem personalLoop_eq (pd : PyDict) : ∀ (vars : List String) (acc : PyDict),
    (∀ pv ∈ vars, isStrOrFalsy (dictGet pd (.str pv)) = true) →
    personalLoop pd vars acc = .ok (dictUpdate acc (personalWrites pd vars)) := by
  intro vars
  induction vars with
  | nil =>
    intro acc _
    simp [personalLoop, personalWrites, dictUpdate_nil]
  | cons pv rest ih =>
    intro acc h
    have hpv := h pv (List.mem_cons_self pv rest)
    rw [show personalWrites pd (pv :: rest) =
      (PyKey.str pv, personalValue (dictGet pd (.str pv))) :: personalWrites pd rest from rfl,
      dictUpdate_cons]
    simp only [personalLoop, lower_step (dictGet pd (.str pv)) hpv]
    exact ih _ (fun q hq => h q (List.mem_cons_of_mem pv hq))

theorem personalLoop_err (pd : PyDict) : ∀ (vars : List String) (acc : PyDict),
    (∃ pv ∈ vars, truthy (dictGet pd (.str pv)) = true ∧
      isStr (dictGet pd (.str pv)) = false) →
    personalLoop pd vars acc = .error .attributeError := by
  intro vars
  induction vars with
  | nil =>
    intro acc h
    rcases h with ⟨pv, hm, _⟩
    cases hm
  | cons pv rest ih =>
    intro acc h
    by_cases hbad : truthy (dictGet pd (.str pv)) = true ∧
        isStr (dictGet pd (.str pv)) = false
    · obtain ⟨ht, hs⟩ := hbad
      simp only [personalLoop, ht, if_true, pyLower_err _ hs]
    · rcases h with ⟨q, hq, hqbad⟩
      have hqrest : q ∈ rest := by
        rcases List.mem_cons.mp hq with he | hm
        · exact absurd (he ▸ hqbad) hbad
        · exact hm
      have hok : isStrOrFalsy (dictGet pd (.str pv)) = true := by
        by_cases ht : truthy (dictGet pd (.str pv)) = true
        · by_cases hs : isStr (dictGet pd (.str pv)) = true
          · simp [isStrOrFalsy, hs]
          · exact absurd ⟨ht, by simpa using hs⟩ hbad
        · simp [isStrOrFalsy, (by simpa using ht : truthy (dictGet pd (.str pv)) = false)]
      simp only [personalLoop, lower_step (dictGet pd (.str pv)) hok]
      exact ih _ ⟨q, hqrest, hqbad⟩

theorem personalLoop_keys (pd : PyDict) : ∀ (vars : List String) (acc out : PyDict) (k : PyKey),
    personalLoop pd vars acc = .ok out → hasKey out k = true →
    hasKey acc k = true ∨ ∃ pv ∈ vars, k = PyKey.str pv := by
  intro vars
  induction vars with
  | nil =>
    intro acc out k h hk
    simp only [personalLoop] at h
    injection h with h2
    subst h2
    exact Or.inl hk
  | cons pv rest ih =>
    intro acc out k h hk
    cases hstep : (if truthy (dictGet pd (.str pv)) then pyLower (dictGet pd (.str pv))
        else Except.ok (dictGet pd (.str pv))) with
    | error e => simp [personalLoop, hstep] at h
    | ok v2 =>
      simp only [personalLoop, hstep] at h
      rcases ih _ _ _ h hk with hacc | ⟨q, hq, hkq⟩
      · rw [hasKey_set] at hacc
        by_cases hke : k = PyKey.str pv
        · exact Or.inr ⟨pv, List.mem_cons_self pv rest, hke⟩
        · rw [if_neg hke] at hacc
          exact Or.inl hacc
      · exact Or.inr ⟨q, List.mem_cons_of_mem pv hq, hkq⟩

theorem demoLoop_eq (d : PyDict) : ∀ (vars : List (String × String)) (acc : PyDict),
    (∀ dv ∈ vars, hasKey d (.str dv.1) = true → ∃ sd, dictGet d (.str dv.1) = Py.dict sd) →
    demoLoop d vars acc = .ok (dictUpdate acc (demoWrites d vars)) := by
  intro vars
  induction vars with
  | nil =>
    intro acc _
    simp [demoLoop, demoWrites, dictUpdate_nil]
  | cons dv rest ih =>
    intro acc h
    by_cases hk : hasKey d (.str dv.1) = true
    · obtain ⟨sd, hsd⟩ := h dv (List.mem_cons_self dv rest) hk
      have hw : demoWrites d (dv :: rest) =
          (PyKey.str (dv.1 ++ "_" ++ dv.2), pySub (dictGet d (.str dv.1)) (.str dv.2)) ::
            demoWrites d rest := by
        simp [demoWrites, List.filterMap_cons, hk]
      rw [hw, dictUpdate_cons]
      have hps : pySub (dictGet d (.str dv.1)) (.str dv.2) = dictGet sd (.str dv.2) := by
        rw [hsd]
        rfl
      simp only [demoLoop, hk, if_true, hsd, pyAsDict, hps]
      exact ih _ (fun q hq hkq => h q (List.mem_cons_of_mem dv hq) hkq)
    · have hkf : hasKey d (.str dv.1) = false := by simpa using hk
      have hw : demoWrites d (dv :: rest) = demoWrites d rest := by
        simp [demoWrites, List.filterMap_cons, hkf]
      rw [hw]
      simp only [demoLoop, hkf, Bool.false_eq_true, if_false]
      exact ih _ (fun q hq hkq => h q (List.mem_cons_of_mem dv hq) hkq)

theorem demoLoop_keys (d : PyDict) : ∀ (vars : List (String × String)) (acc out : PyDict)
    (k : PyKey),
    demoLoop d vars acc = .ok out → hasKey out k = true →
    hasKey acc k = true ∨ ∃ dv ∈ vars, k = PyKey.str (dv.1 ++ "_" ++ dv.2) := by
  intro vars
  induction vars with
  | nil =>
    intro acc out k h hk
    simp only [demoLoop] at h
    injection h with h2
    subst h2
    exact Or.inl hk
  | cons dv rest ih =>
    intro acc out k h hk
    by_cases hkd : hasKey d (.str dv.1) = true
    · cases hsd : pyAsDict (dictGet d (.str dv.1)) with
      | error e => simp [demoLoop, hkd, hsd] at h
      | ok sd =>
        simp only [demoLoop, hkd, if_true, hsd] at h
        rcases ih _ _ _ h hk with hacc | ⟨q, hq, hkq⟩
        · rw [hasKey_set] at hacc
          by_cases hke : k = PyKey.str (dv.1 ++ "_" ++ dv.2)
          · exact Or.inr ⟨dv, List.mem_cons_self dv rest, hke⟩
          · rw [if_neg hke] at hacc
            exact Or.inl hacc
        · exact Or.inr ⟨q, List.mem_cons_of_mem dv hq, hkq⟩
    · have hkf : hasKey d (.str dv.1) = false := by simpa using hkd
      simp only [demoLoop, hkf, Bool.false_eq_true, if_false] at h
      rcases ih _ _ _ h hk with hacc | ⟨q, hq, hkq⟩
      · exact Or.inl hacc
      · exact Or.inr ⟨q, List.mem_cons_of_mem dv hq, hkq⟩

theorem scoresLoop_eq : ∀ (es : List Py) (acc : PyDict),
    (∀ e ∈ es, ∃ ed k n, e = Py.dict ed ∧ pyAsKey (dictGet ed (.str "name")) = .ok k ∧
      pyInt (dictGet ed (.str "score")) = .ok n) →
    scoresLoop es acc = .ok (dictUpdate acc (scoreWrites es)) := by
  intro es
  induction es with
  | nil =>
    intro acc _
    simp [scoresLoop, scoreWrites, dictUpdate_nil]
  | cons e rest ih =>
    intro acc h
    obtain ⟨ed, k, n, he, hk, hn⟩ := h e (List.mem_cons_self e rest)
    subst he
    have hw : scoreWrites (Py.dict ed :: rest) = (k, Py.int n) :: scoreWrites rest := by
      simp [scoreWrites, List.filterMap_cons, hk, hn]
    rw [hw, dictUpdate_cons]
    simp only [scoresLoop, pyAsDict, hn, hk]
    exact ih _ (fun q hq => h q (List.mem_cons_of_mem _ hq))

theorem scoresLoop_ok_proper : ∀ (es : List Py) (acc out : PyDict),
    scoresLoop es acc = .ok out →
    ∀ e ∈ es, ∃ ed k n, e = Py.dict ed ∧ pyAsKey (dictGet ed (.str "name")) = .ok k ∧
      pyInt (dictGet ed (.str "score")) = .ok n := by
  intro es
  induction es with
  | nil =>
    intro acc out _ e he
    cases he
  | cons e2 rest ih =>
    intro acc out h e he
    cases he2 : pyAsDict e2 with
    | error err => simp [scoresLoop, he2] at h
    | ok ed =>
      cases hn : pyInt (dictGet ed (.str "score")) with
      | error err => simp [scoresLoop, he2, hn] at h
      | ok n =>
        cases hk : pyAsKey (dictGet ed (.str "name")) with
        | error err => simp [scoresLoop, he2, hn, hk] at h
        | ok k =>
          simp only [scoresLoop, he2, hn, hk] at h
          rcases List.mem_cons.mp he with he3 | hm
          · subst he3
            refine ⟨ed, k, n, ?_, hk, hn⟩
            cases e <;> simp [pyAsDict] at he2
            rw [he2]
          · exact ih _ _ h e hm

theorem scoresLoop_keys : ∀ (es : List Py) (acc out : PyDict) (k2 : PyKey),
    scoresLoop es acc = .ok out → hasKey out k2 = true →
    hasKey acc k2 = true ∨
      ∃ e ∈ es, ∃ ed, e = Py.dict ed ∧ pyAsKey (dictGet ed (.str "name")) = .ok k2 := by
  intro es
  induction es with
  | nil =>
    intro acc out k2 h hk
    simp only [scoresLoop] at h
    injection h with h2
    subst h2
    exact Or.inl hk
  | cons e2 rest ih =>
    intro acc out k2 h hk
    cases he2 : pyAsDict e2 with
    | error err => simp [scoresLoop, he2] at h
    | ok ed =>
      cases hn : pyInt (dictGet ed (.str "score")) with
      | error err => simp [scoresLoop, he2, hn] at h
      | ok n =>
        cases hkk : pyAsKey (dictGet ed (.str "name")) with
        | error err => simp [scoresLoop, he2, hn, hkk] at h
        | ok k =>
          simp only [scoresLoop, he2, hn, hkk] at h
          have he2d : e2 = Py.dict ed := by
            cases e2 <;> simp [pyAsDict] at he2
            rw [he2]
          rcases ih _ _ _ h hk with hacc | ⟨q, hq, hgood⟩
          · rw [hasKey_set] at hacc
            by_cases hke : k2 = k
            · subst hke
              exact Or.inr ⟨e2, List.mem_cons_self e2 rest, ed, he2d, hkk⟩
            · rw [if_neg hke] at hacc
              exact Or.inl hacc
          · exact Or.inr ⟨q, List.mem_cons_of_mem e2 hq, hgood⟩

theorem scoresLoop_err : ∀ (es : List Py) (acc : PyDict),
    (∀ e ∈ es, ∃ ed, e = Py.dict ed) →
    (∃ e ∈ es, ∃ ed, e = Py.dict ed ∧ ∃ err, pyInt (dictGet ed (.str "score")) = .error err) →
    ∃ err2, scoresLoop es acc = .error err2 := by
  intro es
  induction es with
  | nil =>
    intro acc _ h
    rcases h with ⟨e, he, _⟩
    cases he
  | cons e2 rest ih =>
    intro acc hall hex
    obtain ⟨ed2, he2⟩ := hall e2 (List.mem_cons_self e2 rest)
    subst he2
    cases hn : pyInt (dictGet ed2 (.str "score")) with
    | error err => exact ⟨err, by simp [scoresLoop, pyAsDict, hn]⟩
    | ok n =>
      cases hk : pyAsKey (dictGet ed2 (.str "name")) with
      | error err => exact ⟨err, by simp [scoresLoop, pyAsDict, hn, hk]⟩
      | ok k =>
        have hex2 : ∃ e ∈ rest, ∃ ed, e = Py.dict ed ∧
            ∃ err, pyInt (dictGet ed (.str "score")) = .error err := by
          rcases hex with ⟨e, he, ed, heq, err, herr⟩
          rcases List.mem_cons.mp he with he3 | hm
          · exfalso
            rw [he3] at heq
            injection heq with hinj
            rw [← hinj, hn] at herr
            cases herr
          · exact ⟨e, hm, ed, heq, err, herr⟩
        obtain ⟨err2, hrec⟩ :=
          ih (dictSet acc k (.int n)) (fun q hq => hall q (List.mem_cons_of_mem _ hq)) hex2
        refine ⟨err2, ?_⟩
        simp only [scoresLoop, pyAsDict, hn, hk]
        exact hrec

theorem lastVal_scoreWrites : ∀ (es : List Py) (k : PyKey),
    lastVal (scoreWrites es) k = (lastNamed es k).map Py.int := by
  intro es
  induction es with
  | nil => intro k; simp [scoreWrites, lastNamed, lastVal_nil]
  | cons e rest ih =>
    intro k
    cases e with
    | dict ed =>
      cases hk : pyAsKey (dictGet ed (.str "name")) with
      | error err =>
        have hw : scoreWrites (Py.dict ed :: rest) = scoreWrites rest := by
          simp [scoreWrites, List.filterMap_cons, hk]
        have hh : entryScoreInt (Py.dict ed) k = Option.none := by
          simp [entryScoreInt, hk]
        rw [hw, ih]
        cases hl : lastNamed rest k <;> simp [lastNamed, hl, hh]
      | ok k2 =>
        cases hn : pyInt (dictGet ed (.str "score")) with
        | error err =>
          have hw : scoreWrites (Py.dict ed :: rest) = scoreWrites rest := by
            simp [scoreWrites, List.filterMap_cons, hk, hn]
          have hh : entryScoreInt (Py.dict ed) k = Option.none := by
            simp [entryScoreInt, hk, hn]
          rw [hw, ih]
          cases hl : lastNamed rest k <;> simp [lastNamed, hl, hh]
        | ok n =>
          have hw : scoreWrites (Py.dict ed :: rest) = (k2, Py.int n) :: scoreWrites rest := by
            simp [scoreWrites, List.filterMap_cons, hk, hn]
          have hh : entryScoreInt (Py.dict ed) k =
              (if k2 == k then some n else Option.none) := by
            simp [entryScoreInt, hk, hn]
          rw [hw, lastVal_cons, ih]
          cases hl : lastNamed rest k with
          | some m => simp [lastNamed, hl]
          | none =>
            by_cases hkk : k2 = k <;> simp [lastNamed, hl, hh, hkk]
    | none =>
      rw [show scoreWrites (Py.none :: rest) = scoreWrites rest from rfl, ih]
      cases hl : lastNamed rest k <;> simp [lastNamed, hl, entryScoreInt]
    | str s =>
      rw [show scoreWrites (Py.str s :: rest) = scoreWrites rest from rfl, ih]
      cases hl : lastNamed rest k <;> simp [lastNamed, hl, entryScoreInt]
    | int n =>
      rw [show scoreWrites (Py.int n :: rest) = scoreWrites rest from rfl, ih]
      cases hl : lastNamed rest k <;> simp [lastNamed, hl, entryScoreInt]
    | list es2 =>
      rw [show scoreWrites (Py.list es2 :: rest) = scoreWrites rest from rfl, ih]
      cases hl : lastNamed rest k <;> simp [lastNamed, hl, entryScoreInt]

theorem lastVal_eq_none_of_not_hasKey (w : PyDict) (k : PyKey)
    (h : hasKey w k = false) : lastVal w k = Option.none := by
  induction w with
  | nil => rfl
  | cons p rest ih =>
    rw [hasKey_cons, Bool.or_eq_false_iff] at h
    rw [lastVal_cons, ih h.2]
    simp [h.1]

theorem hasKey_iff_mem_keys (w : PyDict) (k : PyKey) :
    hasKey w k = true ↔ k ∈ w.map Prod.fst := by
  constructor
  · intro h
    rw [hasKey, List.any_eq_true] at h
    obtain ⟨p, hp, hpk⟩ := h
    exact List.mem_map.mpr ⟨p, hp, beq_iff_eq.mp hpk⟩
  · intro h
    obtain ⟨p, hp, hpk⟩ := List.mem_map.mp h
    rw [hasKey, List.any_eq_true]
    exact ⟨p, hp, beq_iff_eq.mpr hpk⟩

theorem lastVal_of_writes_nodup : ∀ (w : PyDict) (k : PyKey) (v : Py),
    (w.map Prod.fst).Nodup → (k, v) ∈ w → lastVal w k = some v := by
  intro w
  induction w with
  | nil =>
    intro k v _ hm
    cases hm
  | cons p rest ih =>
    intro k v hnd hm
    rw [List.map_cons, List.nodup_cons] at hnd
    rcases List.mem_cons.mp hm with he | hm2
    · have hres : hasKey rest k = false := by
        by_contra hc
        have : hasKey rest k = true := by simpa using hc
        rw [hasKey_iff_mem_keys] at this
        rw [← he] at hnd
        exact hnd.1 this
      rw [lastVal_cons, lastVal_eq_none_of_not_hasKey rest k hres, ← he]
      simp
    · rw [lastVal_cons, ih k v hnd.2 hm2]

theorem personalWrites_keys (pd : PyDict) (vars : List String) :
    (personalWrites pd vars).map Prod.fst = vars.map PyKey.str := by
  simp [personalWrites, List.map_map]

theorem demoWrites_mem (d : PyDict) (vars : List (String × String)) (q : PyKey × Py)
    (h : q ∈ demoWrites d vars) :
    ∃ dv ∈ vars, hasKey d (.str dv.1) = true ∧
      q = (PyKey.str (dv.1 ++ "_" ++ dv.2), pySub (dictGet d (.str dv.1)) (.str dv.2)) := by
  rw [demoWrites, List.mem_filterMap] at h
  obtain ⟨dv, hdv, hq⟩ := h
  by_cases hk : hasKey d (.str dv.1) = true
  · rw [if_pos hk] at hq
    injection hq with hq2
    exact ⟨dv, hdv, hk, hq2.symm⟩
  · rw [if_neg hk] at hq
    cases hq

theorem demoWrites_write_mem (d : PyDict) (vars : List (String × String))
    (dv : String × String) (hdv : dv ∈ vars) (hk : hasKey d (.str dv.1) = true) :
    (PyKey.str (dv.1 ++ "_" ++ dv.2), pySub (dictGet d (.str dv.1)) (.str dv.2)) ∈
      demoWrites d vars := by
  rw [demoWrites, List.mem_filterMap]
  exact ⟨dv, hdv, by rw [if_pos hk]⟩

theorem demoWrites_keys_sublist (d : PyDict) : ∀ (vars : List (String × String)),
    ((demoWrites d vars).map Prod.fst).Sublist
      (vars.map (fun dv => PyKey.str (dv.1 ++ "_" ++ dv.2))) := by
  intro vars
  induction vars with
  | nil => simp [demoWrites]
  | cons dv rest ih =>
    by_cases hk : hasKey d (.str dv.1) = true
    · have hw : demoWrites d (dv :: rest) =
          (PyKey.str (dv.1 ++ "_" ++ dv.2), pySub (dictGet d (.str dv.1)) (.str dv.2)) ::
            demoWrites d rest := by
        simp [demoWrites, List.filterMap_cons, hk]
      rw [hw, List.map_cons, List.map_cons]
      exact List.Sublist.cons₂ _ ih
    · have hkf : hasKey d (.str dv.1) = false := by simpa using hk
      have hw : demoWrites d (dv :: rest) = demoWrites d rest := by
        simp [demoWrites, List.filterMap_cons, hkf]
      rw [hw, List.map_cons]
      exact List.Sublist.cons _ ih

theorem process_tu_lead_eq (jd p d s : PyDict)
    (hp : processPersonal (dictGet jd (.str "data")) = .ok p)
    (hd : processDemo (dictGet jd (.str "demo")) = .ok d)
    (hs : processScores (dictGet jd (.str "score")) = .ok s) :
    process_tu_lead (Py.dict jd) = .ok (dictUpdate (dictUpdate d p) s) := by
  simp only [process_tu_lead, pyAsDict, hp, hd, hs]

theorem process_tu_lead_ok_inv (jd out : PyDict)
    (h : process_tu_lead (Py.dict jd) = .ok out) :
    ∃ p d s, processPersonal (dictGet jd (.str "data")) = .ok p ∧
      processDemo (dictGet jd (.str "demo")) = .ok d ∧
      processScores (dictGet jd (.str "score")) = .ok s ∧
      out = dictUpdate (dictUpdate d p) s := by
  cases hp : processPersonal (dictGet jd (.str "data")) with
  | error e => simp [process_tu_lead, pyAsDict, hp] at h
  | ok p =>
    cases hd : processDemo (dictGet jd (.str "demo")) with
    | error e => simp [process_tu_lead, pyAsDict, hp, hd] at h
    | ok d =>
      cases hs : processScores (dictGet jd (.str "score")) with
      | error e => simp [process_tu_lead, pyAsDict, hp, hd, hs] at h
      | ok s =>
        simp only [process_tu_lead, pyAsDict, hp, hd, hs] at h
        injection h with h2
        exact ⟨p, d, s, rfl, rfl, rfl, h2.symm⟩

theorem processScores_list (es : List Py) (hne : es ≠ []) :
    processScores (Py.list es) = scoresLoop es [] := by
  cases es with
  | nil => exact absurd rfl hne
  | cons e rest => rfl

theorem processPersonal_keys (v : Py) (out : PyDict) (k : PyKey)
    (h : processPersonal v = .ok out) (hk : hasKey out k = true) :
    ∃ pv ∈ personal_variables, k = PyKey.str pv := by
  by_cases ht : truthy v = true
  · cases hv : pyAsDict v with
    | error e => simp [processPersonal, ht, hv] at h
    | ok pd =>
      simp only [processPersonal, ht, if_true, hv] at h
      rcases personalLoop_keys pd personal_variables [] out k h hk with habs | hgood
      · simp [hasKey_nil] at habs
      · exact hgood
  · have ht2 : truthy v = false := by simpa using ht
    simp only [processPersonal, ht2, Bool.false_eq_true, if_false] at h
    injection h with h2
    subst h2
    simp [hasKey_nil] at hk

theorem processDemo_keys (v : Py) (out : PyDict) (k : PyKey)
    (h : processDemo v = .ok out) (hk : hasKey out k = true) :
    ∃ dv ∈ demo_variables, k = PyKey.str (dv.1 ++ "_" ++ dv.2) := by
  by_cases ht : truthy v = true
  · cases hv : pyAsDict v with
    | error e => simp [processDemo, ht, hv] at h
    | ok d =>
      simp only [processDemo, ht, if_true, hv] at h
      rcases demoLoop_keys d demo_variables [] out k h hk with habs | hgood
      · simp [hasKey_nil] at habs
      · exact hgood
  · have ht2 : truthy v = false := by simpa using ht
    simp only [processDemo, ht2, Bool.false_eq_true, if_false] at h
    injection h with h2
    subst h2
    simp [hasKey_nil] at hk

theorem processScores_keys (v : Py) (s : PyDict) (k : PyKey)
    (h : processScores v = .ok s) (hk : hasKey s k = true) :
    ∃ es, v = Py.list es ∧ ∃ e ∈ es, ∃ ed, e = Py.dict ed ∧
      pyAsKey (dictGet ed (.str "name")) = .ok k := by
  by_cases ht : truthy v = true
  · cases v with
    | list es =>
      have hl : scoresLoop es [] = .ok s := by
        simpa [processScores, ht, pyAsList] using h
      rcases scoresLoop_keys es [] s k hl hk with habs | hgood
      · simp [hasKey_nil] at habs
      · exact ⟨es, rfl, hgood⟩
    | none => simp [truthy] at ht
    | str s2 => simp [processScores, ht, pyAsList] at h
    | int n => simp [processScores, ht, pyAsList] at h
    | dict fs => simp [processScores, ht, pyAsList] at h
  · have ht2 : truthy v = false := by simpa using ht
    simp only [processScores, ht2, Bool.false_eq_true, if_false] at h
    injection h with h2
    subst h2
    simp [hasKey_nil] at hk

/-- C1: the Normalizer merges its three sub-mappings as
`demo_output.update(personal_output)` followed by
`demo_output.update(scores_output)`, so the precedence is
scores > personal > demographic; in particular, whenever the record's
`score` sequence contains an entry whose name equals one of the four
personal-field names, the final output maps that key to the (last such)
score entry's integer value, silently overwriting the personal value. -/
theorem C1_merge_precedence :
    (∀ (jd p d s : PyDict),
      processPersonal (dictGet jd (.str "data")) = .ok p →
      processDemo (dictGet jd (.str "demo")) = .ok d →
      processScores (dictGet jd (.str "score")) = .ok s →
      process_tu_lead (Py.dict jd) = .ok (dictUpdate (dictUpdate d p) s)) ∧
    (∀ (jd out : PyDict) (es : List Py) (pv : String) (n : Int),
      process_tu_lead (Py.dict jd) = .ok out →
      dictGet jd (.str "score") = Py.list es →
      pv ∈ personal_variables →
      lastNamed es (.str pv) = some n →
      dictGet out (.str pv) = Py.int n) := by
  constructor
  · intro jd p d s hp hd hs
    exact process_tu_lead_eq jd p d s hp hd hs
  · intro jd out es pv n hok hsec hpv hlast
    obtain ⟨p, d, s, hp, hd, hs, hout⟩ := process_tu_lead_ok_inv jd out hok
    have hne : es ≠ [] := by
      intro he
      rw [he] at hlast
      simp [lastNamed] at hlast
    rw [hsec, processScores_list es hne] at hs
    have hprop := scoresLoop_ok_proper es [] s hs
    have hseq := scoresLoop_eq es [] hprop
    rw [hs] at hseq
    injection hseq with hseq2
    subst hout
    rw [dictGet_update]
    have hlv : lastVal s (.str pv) = some (Py.int n) := by
      rw [hseq2, lastVal_update, lastVal_scoreWrites, hlast]
      rfl
    rw [hlv]
    rfl

/-- Witness for C1 at a concrete record whose `score` entry is named
`first`: the score value 7 overwrites the personal value `john`. -/
theorem C1_merge_precedence_witness :
    dictGet [(PyKey.str "email", Py.none), (PyKey.str "phone", Py.none),
      (PyKey.str "first", Py.int 7), (PyKey.str "last", Py.none)]
      (PyKey.str "first") = Py.int 7 :=
  C1_merge_precedence.2
    [(PyKey.str "data", Py.dict [(PyKey.str "first", Py.str "JOHN")]),
     (PyKey.str "score", Py.list [Py.dict [(PyKey.str "name", Py.str "first"),
       (PyKey.str "score", Py.str "7")]])]
    [(PyKey.str "email", Py.none), (PyKey.str "phone", Py.none),
     (PyKey.str "first", Py.int 7), (PyKey.str "last", Py.none)]
    [Py.dict [(PyKey.str "name", Py.str "first"), (PyKey.str "score", Py.str "7")]]
    "first" 7 rfl rfl (by decide) rfl

/-- C2: for the absent input (`None`, the fetcher's no-match signal), the
Normalizer returns the empty mapping immediately and never raises. -/
theorem C2_absent_input_empty : process_tu_lead Py.none = .ok ([] : PyDict) := rfl

/-- C3 counterexample: for the record whose `data` section is
`{email: ""}` (present and non-empty), the code writes the empty string
itself under `email`, not the explicit null marker the claim requires for
every value that is not a non-empty string. -/
theorem C3_counterexample :
    process_tu_lead (Py.dict [(.str "data", Py.dict [(.str "email", Py.str "")])]) =
      .ok [(.str "email", Py.str ""), (.str "phone", Py.none), (.str "first", Py.none),
           (.str "last", Py.none)] ∧ Py.str "" ≠ Py.none :=
  ⟨rfl, fun h => Py.noConfusion h⟩

/-- C3 (amended): for every non-empty `data` section each of whose present
personal-field values is a string or falsy, the personal step writes an
entry for each of the four personal-field names — the value lower-cased if
it is a truthy string, and otherwise the raw falsy value itself (the null
marker when the field is absent, but e.g. the empty string is written as
the empty string, not replaced by a null marker). -/
theorem C3_personal_fields_amended (pd : PyDict)
    (hne : truthy (Py.dict pd) = true)
    (hvals : ∀ pv ∈ personal_variables, isStrOrFalsy (dictGet pd (.str pv)) = true) :
    ∃ out, processPersonal (Py.dict pd) = .ok out ∧
      ∀ pv ∈ personal_variables,
        hasKey out (.str pv) = true ∧
        dictGet out (.str pv) = personalValue (dictGet pd (.str pv)) := by
  refine ⟨dictUpdate [] (personalWrites pd personal_variables), ?_, ?_⟩
  · simp only [processPersonal, hne, if_true, pyAsDict]
    exact personalLoop_eq pd personal_variables [] hvals
  · intro pv hpv
    constructor
    · rw [hasKey_update]
      have hm : hasKey (personalWrites pd personal_variables) (.str pv) = true := by
        rw [hasKey_iff_mem_keys, personalWrites_keys]
        exact List.mem_map.mpr ⟨pv, hpv, rfl⟩
      simp [hm]
    · rw [dictGet_update]
      have hnd : ((personalWrites pd personal_variables).map Prod.fst).Nodup := by
        rw [personalWrites_keys]
        decide
      have hmem : (PyKey.str pv, personalValue (dictGet pd (.str pv))) ∈
          personalWrites pd personal_variables :=
        List.mem_map.mpr ⟨pv, hpv, rfl⟩
      rw [lastVal_of_writes_nodup _ _ _ hnd hmem]
      rfl

/-- Witness for C3 (amended) at the record `{data: {first: "JOHN"}}`. -/
theorem C3_personal_fields_amended_witness :
    ∃ out, processPersonal (Py.dict [(.str "first", Py.str "JOHN")]) = .ok out ∧
      ∀ pv ∈ personal_variables,
        hasKey out (.str pv) = true ∧
        dictGet out (.str pv) =
          personalValue (dictGet [(.str "first", Py.str "JOHN")] (.str pv)) :=
  C3_personal_fields_amended [(.str "first", Py.str "JOHN")] rfl (by decide)

/-- C4: for every `demo` section (a mapping whose relevant field values are
themselves mappings), each of the ten (field, qualifier) pairs whose field
name is a key of `demo` yields the composite key `{field}_{qualifier}`
mapped to `demo[field].get(qualifier)` (the null marker when the qualifier
is absent under that field), and each pair whose field name is not a key of
`demo` yields no composite key at all. -/
theorem C4_demo_composites (d : PyDict)
    (hsub : ∀ dv ∈ demo_variables, hasKey d (.str dv.1) = true →
      ∃ sd, dictGet d (.str dv.1) = Py.dict sd) :
    ∃ out, processDemo (Py.dict d) = .ok out ∧
      ∀ dv ∈ demo_variables,
        (hasKey d (.str dv.1) = true →
          hasKey out (.str (dv.1 ++ "_" ++ dv.2)) = true ∧
          ∀ sd, dictGet d (.str dv.1) = Py.dict sd →
            dictGet out (.str (dv.1 ++ "_" ++ dv.2)) = dictGet sd (.str dv.2)) ∧
        (hasKey d (.str dv.1) = false →
          hasKey out (.str (dv.1 ++ "_" ++ dv.2)) = false) := by
  by_cases ht : truthy (Py.dict d) = true
  · refine ⟨dictUpdate [] (demoWrites d demo_variables), ?_, ?_⟩
    · simp only [processDemo, ht, if_true, pyAsDict]
      exact demoLoop_eq d demo_variables [] hsub
    · intro dv hdv
      constructor
      · intro hk
        constructor
        · rw [hasKey_update]
          have hm : hasKey (demoWrites d demo_variables)
              (.str (dv.1 ++ "_" ++ dv.2)) = true := by
            rw [hasKey_iff_mem_keys]
            exact List.mem_map.mpr
              ⟨_, demoWrites_write_mem d demo_variables dv hdv hk, rfl⟩
          simp [hm]
        · intro sd hsd
          rw [dictGet_update]
          have hnd : ((demoWrites d demo_variables).map Prod.fst).Nodup := by
            refine List.Nodup.sublist (demoWrites_keys_sublist d demo_variables) ?_
            decide
          have hmem := demoWrites_write_mem d demo_variables dv hdv hk
          rw [lastVal_of_writes_nodup _ _ _ hnd hmem]
          simp only [Option.getD_some]
          rw [hsd]
          rfl
      · intro hkf
        rw [hasKey_update]
        have h2 : hasKey (demoWrites d demo_variables)
            (.str (dv.1 ++ "_" ++ dv.2)) = false := by
          by_contra hc
          have hc2 : hasKey (demoWrites d demo_variables)
              (.str (dv.1 ++ "_" ++ dv.2)) = true := by simpa using hc
          rw [hasKey_iff_mem_keys] at hc2
          obtain ⟨q, hq, hqk⟩ := List.mem_map.mp hc2
          obtain ⟨dv2, hdv2, hk2, hqe⟩ := demoWrites_mem d demo_variables q hq
          rw [hqe] at hqk
          have hfe : (fun w : String × String => PyKey.str (w.1 ++ "_" ++ w.2)) dv2 =
              (fun w : String × String => PyKey.str (w.1 ++ "_" ++ w.2)) dv := hqk
          have hnd : (demo_variables.map
              (fun w : String × String => PyKey.str (w.1 ++ "_" ++ w.2))).Nodup := by
            decide
          have hde : dv2 = dv := List.inj_on_of_nodup_map hnd hdv2 hdv hfe
          rw [hde] at hk2
          rw [hk2] at hkf
          cases hkf
        simp [hasKey_nil, h2]
  · have hd : d = [] := by
      cases d with
      | nil => rfl
      | cons p rest => simp [truthy] at ht
    subst hd
    refine ⟨[], rfl, ?_⟩
    intro dv hdv
    refine ⟨fun hk => ?_, fun _ => hasKey_nil _⟩
    simp [hasKey_nil] at hk

/-- Witness for C4 at the `demo` section `{age: {years: 45}}`. -/
theorem C4_demo_composites_witness :
    ∃ out, processDemo (Py.dict [(.str "age", Py.dict [(.str "years", Py.int 45)])]) =
        .ok out ∧
      ∀ dv ∈ demo_variables,
        (hasKey [(.str "age", Py.dict [(.str "years", Py.int 45)])] (.str dv.1) = true →
          hasKey out (.str (dv.1 ++ "_" ++ dv.2)) = true ∧
          ∀ sd, dictGet [(.str "age", Py.dict [(.str "years", Py.int 45)])] (.str dv.1) =
              Py.dict sd →
            dictGet out (.str (dv.1 ++ "_" ++ dv.2)) = dictGet sd (.str dv.2)) ∧
        (hasKey [(.str "age", Py.dict [(.str "years", Py.int 45)])] (.str dv.1) = false →
          hasKey out (.str (dv.1 ++ "_" ++ dv.2)) = false) :=
  C4_demo_composites [(.str "age", Py.dict [(.str "years", Py.int 45)])]
    (fun dv hdv hk => by
      fin_cases hdv <;>
        first
          | exact ⟨[(.str "years", Py.int 45)], rfl⟩
          | exact absurd hk (by decide))

/-- C5: for every `score` sequence of entries each carrying a string `name`
and a string-encoded integer `score`, the score step succeeds, maps each
entry's name to its score converted to an integer (a `Py.int`, not a
string), and on duplicate names the later entry in sequence order wins. -/
theorem C5_scores_last_write_wins (es : List Py)
    (h : ∀ e ∈ es, ∃ ed nm s0 n, e = Py.dict ed ∧
      dictGet ed (.str "name") = Py.str nm ∧
      dictGet ed (.str "score") = Py.str s0 ∧ strToInt? s0 = some n) :
    ∃ out, processScores (Py.list es) = .ok out ∧
      (∀ nm, (∃ e ∈ es, ∃ ed, e = Py.dict ed ∧ dictGet ed (.str "name") = Py.str nm) →
        hasKey out (.str nm) = true) ∧
      (∀ nm n, lastNamed es (.str nm) = some n → dictGet out (.str nm) = Py.int n) := by
  have hprop : ∀ e ∈ es, ∃ ed k n, e = Py.dict ed ∧
      pyAsKey (dictGet ed (.str "name")) = .ok k ∧
      pyInt (dictGet ed (.str "score")) = .ok n := by
    intro e he
    obtain ⟨ed, nm, s0, n, hed, hnm, hs0, hn⟩ := h e he
    refine ⟨ed, .str nm, n, hed, by rw [hnm]; rfl, ?_⟩
    rw [hs0]
    simp [pyInt, hn]
  by_cases hne : es = []
  · subst hne
    refine ⟨[], rfl, ?_, ?_⟩
    · intro nm hex
      rcases hex with ⟨e, he, _⟩
      cases he
    · intro nm n hl
      simp [lastNamed] at hl
  · refine ⟨dictUpdate [] (scoreWrites es), ?_, ?_, ?_⟩
    · rw [processScores_list es hne]
      exact scoresLoop_eq es [] hprop
    · intro nm hex
      rcases hex with ⟨e, he, ed, hed, hnm⟩
      rw [hasKey_update]
      have hm : hasKey (scoreWrites es) (.str nm) = true := by
        rw [hasKey_iff_mem_keys]
        obtain ⟨ed2, nm2, s0, n, hed2, hnm2, hs0, hn⟩ := h e he
        have hede : ed = ed2 := by
          rw [hed] at hed2
          injection hed2
        subst hede
        refine List.mem_map.mpr ⟨(.str nm, Py.int n), ?_, rfl⟩
        rw [scoreWrites, List.mem_filterMap]
        refine ⟨e, he, ?_⟩
        rw [hed]
        have h1 : pyAsKey (dictGet ed (.str "name")) = .ok (.str nm) := by
          rw [hnm]
          rfl
        have h2 : pyInt (dictGet ed (.str "score")) = .ok n := by
          rw [hs0]
          simp [pyInt, hn]
        simp [h1, h2]
      simp [hm]
    · intro nm n hl
      rw [dictGet_update, lastVal_scoreWrites, hl]
      rfl

/-- Witness for C5 at a `score` sequence with two entries named `a`: the
later value 2 wins. -/
theorem C5_scores_last_write_wins_witness :
    ∃ out, processScores (Py.list
        [Py.dict [(.str "name", Py.str "a"), (.str "score", Py.str "1")],
         Py.dict [(.str "name", Py.str "a"), (.str "score", Py.str "2")]]) = .ok out ∧
      (∀ nm, (∃ e ∈ [Py.dict [(.str "name", Py.str "a"), (.str "score", Py.str "1")],
            Py.dict [(.str "name", Py.str "a"), (.str "score", Py.str "2")]],
          ∃ ed, e = Py.dict ed ∧ dictGet ed (.str "name") = Py.str nm) →
        hasKey out (.str nm) = true) ∧
      (∀ nm n, lastNamed
          [Py.dict [(.str "name", Py.str "a"), (.str "score", Py.str "1")],
           Py.dict [(.str "name", Py.str "a"), (.str "score", Py.str "2")]]
          (.str nm) = some n →
        dictGet out (.str nm) = Py.int n) :=
  C5_scores_last_write_wins
    [Py.dict [(.str "name", Py.str "a"), (.str "score", Py.str "1")],
     Py.dict [(.str "name", Py.str "a"), (.str "score", Py.str "2")]]
    (fun e he => by
      rcases List.mem_cons.mp he with he1 | he2
      · subst he1
        exact ⟨[(.str "name", Py.str "a"), (.str "score", Py.str "1")], "a", "1", 1,
          rfl, rfl, rfl, rfl⟩
      · rw [List.mem_singleton] at he2
        subst he2
        exact ⟨[(.str "name", Py.str "a"), (.str "score", Py.str "2")], "a", "2", 2,
          rfl, rfl, rfl, rfl⟩)

/-- C6: a non-numeric score string makes the integer conversion fail
fatally and the error propagates to the caller; conversely, a record whose
three sections are all absent produces the empty mapping with no error, and
a qualifier missing at a deeper level merely yields a null value, not an
error. -/
theorem C6_error_policy :
    process_tu_lead (Py.dict [(.str "score",
        Py.list [Py.dict [(.str "name", Py.str "a"), (.str "score", Py.str "abc")]])]) =
      .error .valueError ∧
    (∀ jd : PyDict, hasKey jd (.str "data") = false → hasKey jd (.str "demo") = false →
      hasKey jd (.str "score") = false → process_tu_lead (Py.dict jd) = .ok []) ∧
    process_tu_lead (Py.dict [(.str "demo", Py.dict [(.str "age", Py.dict [])])]) =
      .ok [(.str "age_years", Py.none)] := by
  refine ⟨rfl, ?_, rfl⟩
  intro jd h1 h2 h3
  have g1 : dictGet jd (.str "data") = Py.none := dictGet_eq_none_of_not_hasKey _ _ h1
  have g2 : dictGet jd (.str "demo") = Py.none := dictGet_eq_none_of_not_hasKey _ _ h2
  have g3 : dictGet jd (.str "score") = Py.none := dictGet_eq_none_of_not_hasKey _ _ h3
  have hall := process_tu_lead_eq jd [] [] []
    (by rw [g1]; rfl) (by rw [g2]; rfl) (by rw [g3]; rfl)
  simpa using hall

/-- Witness for C6 at a record none of whose keys is a known section. -/
theorem C6_error_policy_witness :
    process_tu_lead (Py.dict [(.str "other", Py.int 1)]) = .ok [] :=
  C6_error_policy.2.1 [(.str "other", Py.int 1)] rfl rfl rfl

/-- C7 counterexample: for the parsed response `{transaction: 5}` (the
`transaction` key exists but its value is not a mapping, so the nested
`output` key does not exist), the fetcher raises `AttributeError` instead
of returning the absence signal the claim requires. -/
theorem C7_counterexample :
    query_transunion [(.str "transaction", Py.int 5)] = .error .attributeError ∧
    (Except.error PyErr.attributeError : Except PyErr Py) ≠ .ok Py.none :=
  ⟨rfl, fun h => Except.noConfusion h⟩

/-- C7 (amended): when the `transaction` value is a mapping, the fetcher
returns `transaction.output` exactly when the nested `output` key exists
and the absence signal otherwise (including the implicit fall-through when
`transaction` is present but `output` is absent); when the `transaction`
key is absent it returns the absence signal; but when `transaction` is
present with a non-mapping value, the `.keys()` lookup raises and
propagates. -/
theorem C7_transaction_output_amended :
    (∀ (r td : PyDict), dictGet r (.str "transaction") = Py.dict td →
      query_transunion r =
        .ok (if hasKey td (.str "output") then dictGet td (.str "output") else Py.none)) ∧
    (∀ r : PyDict, hasKey r (.str "transaction") = false →
      query_transunion r = .ok Py.none) := by
  constructor
  · intro r td htd
    have hk : hasKey r (.str "transaction") = true :=
      hasKey_of_dictGet_ne_none r _ (by rw [htd]; exact fun h => Py.noConfusion h)
    simp only [query_transunion, hk, if_true, htd]
    split <;> rfl
  · intro r h
    simp only [query_transunion, h, Bool.false_eq_true, if_false]

/-- Witness for C7 (amended): `transaction` present with no `output`, and
`transaction` absent, both yield the absence signal. -/
theorem C7_transaction_output_amended_witness :
    query_transunion [(.str "transaction", Py.dict [(.str "foo", Py.int 1)])] =
      .ok Py.none ∧
    query_transunion [(.str "bar", Py.int 2)] = .ok Py.none :=
  ⟨C7_transaction_output_amended.1 [(.str "transaction", Py.dict [(.str "foo", Py.int 1)])]
      [(.str "foo", Py.int 1)] rfl,
   C7_transaction_output_amended.2 [(.str "bar", Py.int 2)] rfl⟩

/-- C8: on every record the Normalizer accepts, every key of the output is
one of the four personal-field keys, one of the ten composite demographic
keys, or the `name` value of some entry of the record's `score`
sequence. -/
theorem C8_key_provenance (jd out : PyDict) (k : PyKey)
    (hok : process_tu_lead (Py.dict jd) = .ok out) (hk : hasKey out k = true) :
    k ∈ personalKeys ∨ k ∈ compositeKeys ∨ isScoreName jd k := by
  obtain ⟨p, d, s, hp, hd, hs, hout⟩ := process_tu_lead_ok_inv jd out hok
  subst hout
  rw [hasKey_update] at hk
  rcases Bool.or_eq_true_iff.mp hk with hk1 | hks
  · rw [hasKey_update] at hk1
    rcases Bool.or_eq_true_iff.mp hk1 with hkd | hkp
    · obtain ⟨dv, hdv, hke⟩ := processDemo_keys _ _ _ hd hkd
      refine Or.inr (Or.inl ?_)
      rw [compositeKeys]
      exact List.mem_map.mpr ⟨dv, hdv, hke.symm⟩
    · obtain ⟨pv, hpv, hke⟩ := processPersonal_keys _ _ _ hp hkp
      refine Or.inl ?_
      rw [personalKeys]
      exact List.mem_map.mpr ⟨pv, hpv, hke.symm⟩
  · obtain ⟨es, hves, hgood⟩ := processScores_keys _ _ _ hs hks
    exact Or.inr (Or.inr ⟨es, hves, hgood⟩)

/-- Witness for C8 at the record `{demo: {age: {years: 45}}}` and its
output key `age_years`. -/
theorem C8_key_provenance_witness :
    PyKey.str "age_years" ∈ personalKeys ∨ PyKey.str "age_years" ∈ compositeKeys ∨
      isScoreName [(PyKey.str "demo", Py.dict [(PyKey.str "age",
        Py.dict [(PyKey.str "years", Py.int 45)])])] (PyKey.str "age_years") :=
  C8_key_provenance
    [(PyKey.str "demo", Py.dict [(PyKey.str "age", Py.dict [(PyKey.str "years", Py.int 45)])])]
    [(PyKey.str "age_years", Py.int 45)] (PyKey.str "age_years") rfl rfl

/-- C9: a truthy non-string personal-field value (the integer 3124784892
under `phone`) makes the lower-casing step raise a fatal `AttributeError`;
the personal step is error-free exactly when every present personal-field
value is a string or falsy. -/
theorem C9_lowercase_precondition :
    process_tu_lead (Py.dict [(.str "data",
        Py.dict [(.str "phone", Py.int 3124784892)])]) = .error .attributeError ∧
    (∀ pd : PyDict, (∀ pv ∈ personal_variables,
        isStrOrFalsy (dictGet pd (.str pv)) = true) →
      ∃ out, processPersonal (Py.dict pd) = .ok out) ∧
    (∀ pd : PyDict, (∃ pv ∈ personal_variables,
        truthy (dictGet pd (.str pv)) = true ∧ isStr (dictGet pd (.str pv)) = false) →
      processPersonal (Py.dict pd) = .error .attributeError) := by
  refine ⟨rfl, ?_, ?_⟩
  · intro pd h
    by_cases ht : truthy (Py.dict pd) = true
    · refine ⟨dictUpdate [] (personalWrites pd personal_variables), ?_⟩
      simp only [processPersonal, ht, if_true, pyAsDict]
      exact personalLoop_eq pd personal_variables [] h
    · have ht2 : truthy (Py.dict pd) = false := by simpa using ht
      exact ⟨[], by simp [processPersonal, ht2]⟩
  · intro pd h
    have hne : truthy (Py.dict pd) = true := by
      rcases h with ⟨pv, hpv, ht, _⟩
      cases pd with
      | nil => rw [dictGet_nil] at ht; simp [truthy] at ht
      | cons p rest => simp [truthy]
    simp only [processPersonal, hne, if_true, pyAsDict]
    exact personalLoop_err pd personal_variables [] h

/-- Witness for C9: a string-valued `data` section succeeds, an
integer-valued one raises. -/
theorem C9_lowercase_precondition_witness :
    (∃ out, processPersonal (Py.dict [(.str "first", Py.str "JOHN")]) = .ok out) ∧
    processPersonal (Py.dict [(.str "phone", Py.int 5)]) = .error .attributeError :=
  ⟨C9_lowercase_precondition.2.1 [(.str "first", Py.str "JOHN")] (by decide),
   C9_lowercase_precondition.2.2 [(.str "phone", Py.int 5)] (by decide)⟩

/-- C10: a score entry lacking the `score` key makes `int(None)` raise a
fatal `TypeError`; an entry lacking only the `name` key does not raise and
writes its integer score under the null-marker key; and the score loop is
error-free exactly when every entry carries a convertible score. -/
theorem C10_score_conversion_precondition :
    process_tu_lead (Py.dict [(.str "score",
        Py.list [Py.dict [(.str "name", Py.str "x")]])]) = .error .typeError ∧
    process_tu_lead (Py.dict [(.str "score",
        Py.list [Py.dict [(.str "score", Py.str "5")]])]) =
      .ok [(PyKey.none, Py.int 5)] ∧
    (∀ es : List Py, (∀ e ∈ es, ∃ ed k n, e = Py.dict ed ∧
        pyAsKey (dictGet ed (.str "name")) = .ok k ∧
        pyInt (dictGet ed (.str "score")) = .ok n) →
      ∃ out, processScores (Py.list es) = .ok out) ∧
    (∀ es : List Py, (∀ e ∈ es, ∃ ed, e = Py.dict ed) →
      (∃ e ∈ es, ∃ ed, e = Py.dict ed ∧
        ∃ err, pyInt (dictGet ed (.str "score")) = .error err) →
      ∃ err2, processScores (Py.list es) = .error err2) := by
  refine ⟨rfl, rfl, ?_, ?_⟩
  · intro es h
    by_cases hne : es = []
    · subst hne
      exact ⟨[], rfl⟩
    · refine ⟨dictUpdate [] (scoreWrites es), ?_⟩
      rw [processScores_list es hne]
      exact scoresLoop_eq es [] h
  · intro es hall hex
    have hne : es ≠ [] := by
      rcases hex with ⟨e, he, _⟩
      intro h0
      rw [h0] at he
      cases he
    obtain ⟨err2, hl⟩ := scoresLoop_err es [] hall hex
    refine ⟨err2, ?_⟩
    rw [processScores_list es hne]
    exact hl

/-- Witness for C10: a well-formed entry succeeds; an entry whose score
string is not numeric makes the loop fail. -/
theorem C10_score_conversion_precondition_witness :
    (∃ out, processScores (Py.list
        [Py.dict [(.str "name", Py.str "a"), (.str "score", Py.str "1")]]) = .ok out) ∧
    (∃ err2, processScores (Py.list
        [Py.dict [(.str "score", Py.str "zz")]]) = .error err2) :=
  ⟨C10_score_conversion_precondition.2.2.1
      [Py.dict [(.str "name", Py.str "a"), (.str "score", Py.str "1")]]
      (fun e he => by
        rw [List.mem_singleton] at he
        subst he
        exact ⟨[(.str "name", Py.str "a"), (.str "score", Py.str "1")], .str "a", 1,
          rfl, rfl, rfl⟩),
   C10_score_conversion_precondition.2.2.2
      [Py.dict [(.str "score", Py.str "zz")]]
      (fun e he => by
        rw [List.mem_singleton] at he
        subst he
        exact ⟨[(.str "score", Py.str "zz")], rfl⟩)
      ⟨Py.dict [(.str "score", Py.str "zz")], List.mem_cons_self _ _,
        [(.str "score", Py.str "zz")], rfl, .valueError, rfl⟩⟩

end TULead
